import Mathlib

/-!
Verification of the `factoring` quadratic-polynomial parser and solver.

The source program (src/main.rs) parses a textual quadratic polynomial into a
coefficient triple `(a, b, c)` and computes its roots with the closed-form
quadratic formula.  We embed it shallowly:

* strings are `List Char` (the program validates its input to ASCII, so byte
  indexing and char indexing agree);
* `f64` values produced by parsing are modelled as exact rationals `ℚ`: every
  numeric literal and arithmetic step exercised by the verified properties is
  exactly representable, and `f64` parsing/addition is exact on them;
* the root formula is modelled over `ℝ` with `Real.sqrt`;
* `unwrap` panics on numeric-parse failure are modelled by `Option`, `none`
  standing for the propagated parse error.
-/

namespace Factoring

/-- Rust `str::find`-style search for the first character satisfying `q`. -/
def findChar (q : Char → Bool) : List Char → Option Nat
  | [] => none
  | c :: rest => if q c then some 0 else (findChar q rest).map (· + 1)

/-- Numeric value of a digit string, most significant digit first
(the usual base-10 accumulator used by `from_str` implementations). -/
def digitsVal (l : List Char) : ℕ :=
  l.foldl (fun a c => 10 * a + (c.toNat - '0'.toNat)) 0

/-- Rust `f64::from_str` on an unsigned body, restricted to the decimal forms
reachable in this program: digits with at most one `.` and at least one digit.
The exponent (`e`/`E`) and `inf`/`nan` forms of the full grammar are omitted:
the program's validated character set `{0-9 + - ^ . x space tab}` cannot spell
them.  The value is the exact rational denoted by the literal. -/
def parseDecBody (body : List Char) : Option ℚ :=
  match body.dropWhile Char.isDigit with
  | [] => if body = [] then none else some (digitsVal body)
  | '.' :: fp =>
      if fp.all Char.isDigit ∧ ¬(body.takeWhile Char.isDigit = [] ∧ fp = []) then
        some ((digitsVal (body.takeWhile Char.isDigit) : ℚ) +
          (digitsVal fp : ℚ) / 10 ^ fp.length)
      else none
  | _ => none

/-- Rust `f64::from_str` (see `parseDecBody` for the modelled fragment):
an optional single leading sign followed by a decimal body. -/
def parseF64 (s : List Char) : Option ℚ :=
  match s with
  | '+' :: body => parseDecBody body
  | '-' :: body => (parseDecBody body).map Neg.neg
  | body => parseDecBody body

/-- Rust `u8::from_str`: an optional leading `+`, then one or more digits,
value at most 255.  A leading `-` fails for the unsigned type. -/
def parseU8 (s : List Char) : Option ℕ :=
  let body := match s with
    | '+' :: r => r
    | r => r
  if body ≠ [] ∧ body.all Char.isDigit ∧ digitsVal body ≤ 255 then
    some (digitsVal body)
  else none

/-- `struct Subpolynomial { coefficent: f64, degree: u8 }` (field name as in
the source).  The degree is a `ℕ`; `parseU8` enforces the `u8` range. -/
structure Subpolynomial where
  coefficent : ℚ
  degree : ℕ
deriving DecidableEq, Repr

/-- `subpoly.find('x').unwrap_or_else(|| subpoly.len())`. -/
def coefficentEndIndex (sub : List Char) : ℕ :=
  (findChar (· = 'x') sub).getD sub.length

/-- `subpoly.find('^').and_then(|i| if i + 1 >= subpoly.len() { None } else { Some(i + 1) })`. -/
def degreeStartIndex (sub : List Char) : Option ℕ :=
  (findChar (· = '^') sub).bind fun i =>
    if i + 1 ≥ sub.length then none else some (i + 1)

/-- The coefficient substring after the implicit-`1` fix-up: an empty, `"+"`,
or `"-"` coefficient gets a `'1'` appended. -/
def fixedCoefficent (sub : List Char) : List Char :=
  let c := sub.take (coefficentEndIndex sub)
  if c = [] ∨ c = ['-'] ∨ c = ['+'] then c ++ ['1'] else c

/-- The degree substring: the characters after `'^'` when present and nonempty,
otherwise `"0"` when the coefficient consumed the whole buffer, else `"1"`. -/
def degreeString (sub : List Char) : List Char :=
  match degreeStartIndex sub with
  | some i => sub.drop i
  | none => if coefficentEndIndex sub = sub.length then ['0'] else ['1']

/-- `impl From<S> for Subpolynomial`: parse one term buffer.  The source
`unwrap`s both parses; `none` models the panic (ParseError). -/
def Subpolynomial.fromStr (sub : List Char) : Option Subpolynomial :=
  match parseF64 (fixedCoefficent sub), parseU8 (degreeString sub) with
  | some c, some d => some ⟨c, d⟩
  | _, _ => none

/-- The characters the tokenizer loop appends to the term buffer:
`c.is_alphanumeric() || c == '^' || c == '.'`. -/
def isBufChar (c : Char) : Bool :=
  c.isAlphanum || c = '^' || c = '.'

/-- The boundary-time sign look-back: at position `i` with buffer `buf`, look
at index `i - buf.len() - 1` (Rust `checked_sub`); if that character of the
whole string `p` is `+` or `-`, prepend it to the buffer. -/
def attachSign (p : List Char) (i : ℕ) (buf : List Char) : List Char :=
  let index : Option ℕ := if buf.length + 1 ≤ i then some (i - (buf.length + 1)) else none
  match index.map (fun j => p.getD j ' ') with
  | some c => if c = '+' ∨ c = '-' then c :: buf else buf
  | none => buf

/-- The scan loop of `impl From<S> for Polynomial` over `0..=polynomial.len()`:
`p` is the whole (whitespace-stripped) string, `rest` the characters from
position `i` on, `buf` the current term buffer.  Produces the term buffers
(sign already re-attached) in order. -/
def tokenizeAux (p : List Char) : List Char → ℕ → List Char → List (List Char)
  | [], i, buf =>
      if buf = [] then [] else [attachSign p i buf]
  | c :: rest, i, buf =>
      if (c = '+' ∨ c = '-') ∧ buf ≠ [] then
        attachSign p i buf :: tokenizeAux p rest (i + 1) (if isBufChar c then [c] else [])
      else
        tokenizeAux p rest (i + 1) (if isBufChar c then buf ++ [c] else buf)

/-- Tokenize an already whitespace-stripped string into term buffers. -/
def tokenize (p : List Char) : List (List Char) :=
  tokenizeAux p p 0 []

/-- Parse every term buffer of a stripped string; `none` as soon as any
buffer fails to parse (the source panics inside the loop). -/
def tokenizeTerms (p : List Char) : Option (List Subpolynomial) :=
  (tokenize p).mapM Subpolynomial.fromStr

/-- `.replace(" ", "").replace("\t", "")`. -/
def stripWs (s : List Char) : List Char :=
  s.filter fun c => ¬(c = ' ' ∨ c = '\t')

/-- `struct Polynomial { a: f64, b: f64, c: f64 }`. -/
structure Polynomial where
  a : ℚ
  b : ℚ
  c : ℚ
deriving DecidableEq, Repr

/-- The aggregation step of `impl From<S> for Polynomial`: filter the parsed
subpolynomials by degree and fold the coefficients. -/
def build (subs : List Subpolynomial) : Polynomial where
  a := (subs.filter fun x => x.degree = 2).foldl (fun acc x => acc + x.coefficent) 0
  b := (subs.filter fun x => x.degree = 1).foldl (fun acc x => acc + x.coefficent) 0
  c := (subs.filter fun x => x.degree = 0).foldl (fun acc x => acc + x.coefficent) 0

/-- `impl From<S> for Polynomial`: strip whitespace, tokenize, parse each term,
aggregate by degree. -/
def Polynomial.fromStr (s : List Char) : Option Polynomial :=
  (tokenizeTerms (stripWs s)).map build

/-- `Polynomial::roots`: the quadratic formula, modelled over `ℝ`. -/
noncomputable def Polynomial.roots (p : Polynomial) : ℝ × ℝ :=
  ((-(p.b : ℝ) + Real.sqrt ((p.b : ℝ) * p.b - 4 * p.a * p.c)) / (2 * p.a),
   (-(p.b : ℝ) - Real.sqrt ((p.b : ℝ) * p.b - 4 * p.a * p.c)) / (2 * p.a))

/-- The seeded whitespace-and-sign-run scenario input of the test suite. -/
def scenarioInput : List Char :=
  ("x^2 + -0.5x + -2.5x + 2.5x + 0.5x + 4x + 8x - 4x -+-4x + 4 + 12 --+-8         -4").toList

/-! ## Helper lemmas -/

lemma roots_one_four_four : Polynomial.roots ⟨1, 4, 4⟩ = (-2, -2) := by
  have hd : (((4 : ℚ) : ℝ) * ((4 : ℚ) : ℝ) - 4 * ((1 : ℚ) : ℝ) * ((4 : ℚ) : ℝ)) = 0 := by
    norm_num
  simp only [Polynomial.roots, hd, Real.sqrt_zero]
  norm_num

/-- If no character of `rest` is buffer-appendable, the scan loop starting with
an empty buffer emits nothing. -/
lemma tokenizeAux_empty_of_no_bufChar (p : List Char) :
    ∀ rest i, (∀ c ∈ rest, isBufChar c = false) → tokenizeAux p rest i [] = [] := by
  intro rest
  induction rest with
  | nil => intro i _; simp [tokenizeAux]
  | cons c rest ih =>
      intro i h
      have hc : isBufChar c = false := h c (List.mem_cons_self c rest)
      simp only [tokenizeAux, ne_eq, not_true_eq_false, and_false, if_false, hc,
        Bool.false_eq_true, if_neg, ite_false, and_true]
      exact ih (i + 1) fun d hd => h d (List.mem_cons_of_mem c hd)

lemma isBufChar_of_sign {c : Char} (h : c = '+' ∨ c = '-') : isBufChar c = false := by
  rcases h with h | h <;> rw [h] <;> decide

lemma not_sign_of_isBufChar {c : Char} (h : isBufChar c = true) : ¬(c = '+' ∨ c = '-') := by
  intro hs
  rw [isBufChar_of_sign hs] at h
  exact Bool.false_ne_true h

/-- If every remaining character is buffer-appendable, the scan loop performs
a single flush at the end of the string. -/
lemma tokenizeAux_flush (p : List Char) :
    ∀ rest buf i, (∀ c ∈ rest, isBufChar c = true) → buf ++ rest ≠ [] →
      tokenizeAux p rest i buf = [attachSign p (i + rest.length) (buf ++ rest)] := by
  intro rest
  induction rest with
  | nil =>
      intro buf i _ hne
      rw [List.append_nil] at hne
      simp [tokenizeAux, hne]
  | cons c rest ih =>
      intro buf i h hne
      have hc : isBufChar c = true := h c (List.mem_cons_self c rest)
      have hns : ¬((c = '+' ∨ c = '-') ∧ buf ≠ []) := fun hx =>
        not_sign_of_isBufChar hc hx.1
      simp only [tokenizeAux, if_neg hns, if_pos hc, hc, ite_true]
      rw [ih (buf ++ [c]) (i + 1) (fun d hd => h d (List.mem_cons_of_mem c hd)) (by simp)]
      rw [List.append_assoc, List.singleton_append, List.length_cons]
      have harith : i + 1 + rest.length = i + (rest.length + 1) := by omega
      rw [harith]

/-- Leading sign characters are consumed as no-op boundary triggers when the
buffer is empty: they only advance the position. -/
lemma tokenizeAux_skip_signs (p : List Char) :
    ∀ signs rest i, (∀ c ∈ signs, c = '+' ∨ c = '-') →
      tokenizeAux p (signs ++ rest) i [] = tokenizeAux p rest (i + signs.length) [] := by
  intro signs
  induction signs with
  | nil => intro rest i _; simp
  | cons s signs ih =>
      intro rest i h
      have hs : s = '+' ∨ s = '-' := h s (List.mem_cons_self s signs)
      have hbs : isBufChar s = false := isBufChar_of_sign hs
      simp only [List.cons_append, tokenizeAux, ne_eq, not_true_eq_false, and_false,
        ite_false, hbs, Bool.false_eq_true, if_false, List.append_eq]
      rw [ih rest (i + 1) (fun d hd => h d (List.mem_cons_of_mem s hd))]
      have harith : i + 1 + signs.length = i + (signs.length + 1) := by omega
      rw [harith, List.length_cons]

lemma getLastD_eq_getD :
    ∀ (l : List Char) (c d : Char), (c :: l).getLastD d = (c :: l).getD l.length d := by
  intro l
  induction l with
  | nil => intro c d; rfl
  | cons e l ih =>
      intro c d
      rw [List.getLastD_cons d c (e :: l), ih e c]
      have h1 : l.length < (e :: l).length := by simp
      have h2 : l.length + 1 < (c :: e :: l).length := by simp
      rw [List.length_cons, List.getD_eq_getElem _ c h1, List.getD_eq_getElem _ d h2]
      simp

lemma attachSign_of_short (p : List Char) (i : ℕ) (buf : List Char)
    (h : i < buf.length + 1) : attachSign p i buf = buf := by
  unfold attachSign
  rw [if_neg (by omega)]
  rfl

lemma attachSign_of_sign (p : List Char) (i : ℕ) (buf : List Char)
    (h : buf.length + 1 ≤ i)
    (hs : p.getD (i - (buf.length + 1)) ' ' = '+' ∨ p.getD (i - (buf.length + 1)) ' ' = '-') :
    attachSign p i buf = p.getD (i - (buf.length + 1)) ' ' :: buf := by
  unfold attachSign
  rw [if_pos h]
  simp only [Option.map_some']
  rw [if_pos hs]

lemma attachSign_of_not_sign (p : List Char) (i : ℕ) (buf : List Char)
    (h : buf.length + 1 ≤ i)
    (hs : ¬(p.getD (i - (buf.length + 1)) ' ' = '+' ∨ p.getD (i - (buf.length + 1)) ' ' = '-')) :
    attachSign p i buf = buf := by
  unfold attachSign
  rw [if_pos h]
  simp only [Option.map_some']
  rw [if_neg hs]

/-- A nonempty run of signs followed by a nonempty run of buffer characters
tokenizes to a single buffer carrying exactly the last sign of the run:
the earlier signs trigger empty-buffer boundary checks, which are no-ops. -/
lemma tokenize_signs_content (signs content : List Char) (hs : signs ≠ [])
    (hsign : ∀ c ∈ signs, c = '+' ∨ c = '-')
    (hc : content ≠ []) (hbuf : ∀ c ∈ content, isBufChar c = true) :
    tokenize (signs ++ content) = [signs.getLastD ' ' :: content] := by
  have hlen : 0 < signs.length := List.length_pos.mpr hs
  unfold tokenize
  rw [tokenizeAux_skip_signs _ _ _ _ hsign,
      tokenizeAux_flush _ _ _ _ hbuf (by simp [hc])]
  simp only [List.nil_append, Nat.zero_add, List.length_nil]
  have hcond : content.length + 1 ≤ signs.length + content.length := by omega
  have hidx : signs.length + content.length - (content.length + 1) = signs.length - 1 := by
    omega
  have hlt : signs.length - 1 < signs.length := by omega
  have hget : (signs ++ content).getD (signs.length - 1) ' ' = signs.getLastD ' ' := by
    rw [List.getD_append _ _ _ _ hlt]
    cases signs with
    | nil => cases hs rfl
    | cons s ss => rw [getLastD_eq_getD ss s ' ']; simp
  have hmem : signs.getLastD ' ' ∈ signs := by
    cases signs with
    | nil => cases hs rfl
    | cons s ss =>
        rw [getLastD_eq_getD ss s ' ', List.getD_eq_getElem _ _ (by simp)]
        exact List.getElem_mem _
  rw [attachSign_of_sign _ _ _ hcond (by rw [hidx, hget]; exact hsign _ hmem),
      hidx, hget]

lemma findChar_eq_none (q : Char → Bool) :
    ∀ l : List Char, findChar q l = none ↔ ∀ c ∈ l, q c = false := by
  intro l
  induction l with
  | nil => simp [findChar]
  | cons c rest ih =>
      by_cases hq : q c
      · simp [findChar, hq]
      · simp only [findChar, hq, Bool.false_eq_true, if_false, Option.map_eq_none',
          List.mem_cons]
        constructor
        · rintro h d (rfl | hd)
          · exact Bool.of_not_eq_true hq
          · exact (ih.mp h) d hd
        · intro h
          exact ih.mpr fun d hd => h d (Or.inr hd)

lemma findChar_get (q : Char → Bool) :
    ∀ l i, findChar q l = some i → ∃ c, l.get? i = some c ∧ q c = true := by
  intro l
  induction l with
  | nil => intro i h; simp [findChar] at h
  | cons c rest ih =>
      intro i h
      by_cases hq : q c
      · simp only [findChar, hq, if_true] at h
        cases h
        exact ⟨c, rfl, hq⟩
      · simp only [findChar, hq, Bool.false_eq_true, if_false, Option.map_eq_some'] at h
        obtain ⟨j, hj, rfl⟩ := h
        obtain ⟨d, hd, hqd⟩ := ih j hj
        exact ⟨d, hd, hqd⟩

lemma findChar_lt_length {q : Char → Bool} {l : List Char} {i : ℕ}
    (h : findChar q l = some i) : i < l.length := by
  obtain ⟨c, hc, -⟩ := findChar_get q l i h
  exact (List.get?_eq_some.mp hc).1

lemma findChar_append_of_none (q : Char → Bool) (l₁ l₂ : List Char)
    (h : ∀ c ∈ l₁, q c = false) :
    findChar q (l₁ ++ l₂) = (findChar q l₂).map (· + l₁.length) := by
  induction l₁ with
  | nil => simp
  | cons c rest ih =>
      have hc : q c = false := h c (List.mem_cons_self c rest)
      simp only [List.cons_append, findChar, hc, Bool.false_eq_true, if_false,
        List.append_eq]
      rw [ih fun d hd => h d (List.mem_cons_of_mem c hd), Option.map_map]
      cases findChar q l₂ with
      | none => simp
      | some j => simp

/-- `coefficent_end_index` is the whole length exactly when the buffer has
no `'x'`. -/
lemma coefficentEndIndex_eq_length_iff (sub : List Char) :
    coefficentEndIndex sub = sub.length ↔ 'x' ∉ sub := by
  unfold coefficentEndIndex
  cases hf : findChar (· = 'x') sub with
  | none =>
      simp only [Option.getD_none, true_iff]
      intro hx
      have := (findChar_eq_none _ sub).mp hf 'x' hx
      simp at this
  | some i =>
      have hlt : i < sub.length := findChar_lt_length hf
      simp only [Option.getD_some]
      constructor
      · intro h; omega
      · intro hx
        obtain ⟨c, hc, hqc⟩ := findChar_get _ sub i hf
        have : c = 'x' := by simpa using hqc
        subst this
        exact absurd (List.get?_mem hc) hx

lemma parseDecBody_chars {body : List Char} {v : ℚ} (h : parseDecBody body = some v) :
    body ≠ [] ∧ ∀ c ∈ body, c.isDigit = true ∨ c = '.' := by
  have hsplit : body.takeWhile Char.isDigit ++ body.dropWhile Char.isDigit = body :=
    List.takeWhile_append_dropWhile Char.isDigit body
  cases hdw : body.dropWhile Char.isDigit with
  | nil =>
      have h' : parseDecBody body =
          if body = [] then none else some ((digitsVal body : ℚ)) := by
        unfold parseDecBody
        rw [hdw]
      rw [h'] at h
      by_cases hb : body = []
      · rw [if_pos hb] at h; cases h
      · refine ⟨hb, fun c hc => Or.inl ?_⟩
        have hbody : body.takeWhile Char.isDigit = body := by
          rw [hdw, List.append_nil] at hsplit
          exact hsplit
        exact List.mem_takeWhile_imp (hbody ▸ hc)
  | cons d fp =>
      by_cases hd : d = '.'
      · subst hd
        have h' : parseDecBody body =
            if fp.all Char.isDigit ∧ ¬(body.takeWhile Char.isDigit = [] ∧ fp = []) then
              some ((digitsVal (body.takeWhile Char.isDigit) : ℚ) +
                (digitsVal fp : ℚ) / 10 ^ fp.length)
            else none := by
          unfold parseDecBody
          rw [hdw]
          rfl
        rw [h'] at h
        by_cases hcond : fp.all Char.isDigit ∧ ¬(body.takeWhile Char.isDigit = [] ∧ fp = [])
        · have hne : body ≠ [] := by
            intro hb
            rw [hb] at hdw
            simp at hdw
          refine ⟨hne, fun c hc => ?_⟩
          rw [← hsplit, hdw] at hc
          rcases List.mem_append.mp hc with hc1 | hc2
          · exact Or.inl (List.mem_takeWhile_imp hc1)
          · rcases List.mem_cons.mp hc2 with rfl | hc3
            · exact Or.inr rfl
            · exact Or.inl (by simpa using List.all_eq_true.mp hcond.1 c hc3)
        · rw [if_neg hcond] at h; cases h
      · have h' : parseDecBody body = none := by
          unfold parseDecBody
          rw [hdw]
          split
          · rename_i heq; cases heq
          · rename_i fp' heq
            injection heq with h1 h2
            exact absurd h1 hd
          · rfl
        rw [h'] at h
        cases h

lemma parseF64_other {c : Char} (body : List Char) (h1 : c ≠ '+') (h2 : c ≠ '-') :
    parseF64 (c :: body) = parseDecBody (c :: body) := by
  unfold parseF64
  split
  · rename_i heq
    injection heq with ha hb
    exact absurd ha h1
  · rename_i heq
    injection heq with ha hb
    exact absurd ha h2
  · rfl

lemma parseF64_structure {C : List Char} {v : ℚ} (h : parseF64 C = some v) :
    ∃ sgn body, C = sgn ++ body ∧ (sgn = [] ∨ sgn = ['+'] ∨ sgn = ['-']) ∧ body ≠ [] ∧
      ∀ c ∈ body, c.isDigit = true ∨ c = '.' := by
  cases C with
  | nil =>
      rw [show parseF64 [] = none from rfl] at h
      cases h
  | cons c body =>
      by_cases h1 : c = '+'
      · subst h1
        have h' : parseDecBody body = some v := h
        obtain ⟨hne, hchars⟩ := parseDecBody_chars h'
        exact ⟨['+'], body, rfl, by simp, hne, hchars⟩
      · by_cases h2 : c = '-'
        · subst h2
          have h' : (parseDecBody body).map Neg.neg = some v := h
          rw [Option.map_eq_some'] at h'
          obtain ⟨w, hw, -⟩ := h'
          obtain ⟨hne, hchars⟩ := parseDecBody_chars hw
          exact ⟨['-'], body, rfl, by simp, hne, hchars⟩
        · rw [parseF64_other body h1 h2] at h
          obtain ⟨hne, hchars⟩ := parseDecBody_chars h
          exact ⟨[], c :: body, rfl, by simp, hne, hchars⟩

lemma isBufChar_of_digit_or_dot {c : Char} (h : c.isDigit = true ∨ c = '.') :
    isBufChar c = true := by
  rcases h with h | rfl
  · simp [isBufChar, Char.isAlphanum, h]
  · decide

lemma digit_or_dot_facts {c : Char} (h : c.isDigit = true ∨ c = '.') :
    c ≠ 'x' ∧ c ≠ '^' ∧ c ≠ '+' ∧ c ≠ '-' ∧ c ≠ ' ' ∧ c ≠ '\t' := by
  rcases h with h | rfl
  · refine ⟨?_, ?_, ?_, ?_, ?_, ?_⟩ <;> rintro rfl <;> revert h <;> decide
  · refine ⟨by decide, by decide, by decide, by decide, by decide, by decide⟩

lemma stripWs_eq_self {s : List Char} (h : ∀ c ∈ s, c ≠ ' ' ∧ c ≠ '\t') :
    stripWs s = s := by
  unfold stripWs
  rw [List.filter_eq_self]
  intro a ha
  simp only [decide_eq_true_eq, not_or]
  exact h a ha

lemma mapM_singleton {α β : Type} (f : α → Option β) (a : α) :
    [a].mapM f = (f a).map fun b => [b] := by
  cases hfa : f a <;> simp [List.mapM, List.mapM.loop, hfa]

/-- A single term — an optional sign followed by buffer characters —
tokenizes to exactly one buffer equal to the whole input. -/
lemma tokenize_single_term (sgn content : List Char)
    (hsgn : sgn = [] ∨ sgn = ['+'] ∨ sgn = ['-'])
    (hc : content ≠ []) (hbuf : ∀ c ∈ content, isBufChar c = true) :
    tokenize (sgn ++ content) = [sgn ++ content] := by
  rcases hsgn with rfl | rfl | rfl
  · unfold tokenize
    simp only [List.nil_append]
    rw [tokenizeAux_flush content content [] 0 hbuf (by simp [hc])]
    simp only [List.nil_append, Nat.zero_add]
    rw [attachSign_of_short content content.length content (by omega)]
  · rw [tokenize_signs_content ['+'] content (by simp) (by simp) hc hbuf]
    rfl
  · rw [tokenize_signs_content ['-'] content (by simp) (by simp) hc hbuf]
    rfl

/-! ## Claim theorems -/

/-- C1: for the scenario input, after space and tab stripping the parser
produces the coefficient triple `a = 1, b = 4, c = 4`, and `roots` on that
polynomial returns exactly `(-2.0, -2.0)`. -/
theorem scenario_end_to_end :
    Polynomial.fromStr scenarioInput = some ⟨1, 4, 4⟩ ∧
    Polynomial.roots ⟨1, 4, 4⟩ = (-2, -2) :=
  ⟨by with_unfolding_all decide, roots_one_four_four⟩

/-- C3: `"-5x"` tokenizes to coefficient `-5`, degree `1`, while `"+5x"` and
`"5x"` tokenize to coefficient `5`, degree `1`; `"--+-8"` yields the term
`-8`; and in general a nonempty run of `+`/`-` characters before a term's
content resolves to the single sign immediately adjacent to the content (the
run's last sign) — the earlier signs are dropped, never multiplied. -/
theorem sign_adjacent_resolution :
    tokenizeTerms ("-5x".toList) = some [⟨-5, 1⟩] ∧
    tokenizeTerms ("+5x".toList) = some [⟨5, 1⟩] ∧
    tokenizeTerms ("5x".toList) = some [⟨5, 1⟩] ∧
    tokenizeTerms ("--+-8".toList) = some [⟨-8, 0⟩] ∧
    ∀ signs content, signs ≠ [] → (∀ c ∈ signs, c = '+' ∨ c = '-') →
      content ≠ [] → (∀ c ∈ content, isBufChar c = true) →
      tokenize (signs ++ content) = [signs.getLastD ' ' :: content] :=
  ⟨by with_unfolding_all decide, by with_unfolding_all decide,
   by with_unfolding_all decide, by with_unfolding_all decide, tokenize_signs_content⟩

/-- Witness for C3: the universal sign-run part applied to the run `"--+-"`
followed by content `"8"`; only the adjacent `'-'` is kept. -/
theorem sign_adjacent_resolution_witness :
    tokenize (['-', '-', '+', '-'] ++ ['8']) =
      [['-', '-', '+', '-'].getLastD ' ' :: ['8']] :=
  sign_adjacent_resolution.2.2.2.2 ['-', '-', '+', '-'] ['8']
    (by decide) (by decide) (by decide) (by decide)

/-- C7: `roots` returns the pair given by the quadratic formula
`((-b ± sqrt(b*b - 4*a*c)) / (2*a))`, and on `{a := 1, b := 4, c := 4}` it
returns exactly `(-2.0, -2.0)` since the discriminant is `0`. -/
theorem roots_quadratic_formula :
    (∀ p : Polynomial, p.roots =
      ((-(p.b : ℝ) + Real.sqrt ((p.b : ℝ) * p.b - 4 * p.a * p.c)) / (2 * p.a),
       (-(p.b : ℝ) - Real.sqrt ((p.b : ℝ) * p.b - 4 * p.a * p.c)) / (2 * p.a))) ∧
    Polynomial.roots ⟨1, 4, 4⟩ = (-2, -2) :=
  ⟨fun _ => rfl, roots_one_four_four⟩

/-- C9: an input with no alphanumeric, `'^'`, or `'.'` character (for example
the empty string, or only signs, spaces, and tabs) produces no terms, and the
parser returns the polynomial `{a := 0, b := 0, c := 0}` with no error. -/
theorem no_term_chars_zero_poly (s : List Char)
    (h : ∀ c ∈ s, isBufChar c = false) :
    Polynomial.fromStr s = some ⟨0, 0, 0⟩ := by
  have hf : ∀ c ∈ stripWs s, isBufChar c = false := fun c hc =>
    h c (List.mem_of_mem_filter hc)
  unfold Polynomial.fromStr tokenizeTerms tokenize
  rw [tokenizeAux_empty_of_no_bufChar _ _ _ hf]
  rfl

/-- Witness for C9: a string of only signs, a space, and a tab parses to the
zero polynomial. -/
theorem no_term_chars_zero_poly_witness :
    Polynomial.fromStr ("+- \t-".toList) = some ⟨0, 0, 0⟩ :=
  no_term_chars_zero_poly _ (by decide)

/-- C4: the buffer `"x"` parses to coefficient `1`, degree `1`; `"x^2"` to
coefficient `1`, degree `2`; `"7"` to coefficient `7`, degree `0`; `"-x"` to
coefficient `-1`, degree `1`.  Generally an empty, `"+"`, or `"-"` coefficient
substring is treated as `1` with the sign preserved, and with no `'^'`-degree
substring the degree is `0` when the buffer has no `'x'` and `1` otherwise. -/
theorem term_implicit_values :
    Subpolynomial.fromStr ['x'] = some ⟨1, 1⟩ ∧
    Subpolynomial.fromStr ['x', '^', '2'] = some ⟨1, 2⟩ ∧
    Subpolynomial.fromStr ['7'] = some ⟨7, 0⟩ ∧
    Subpolynomial.fromStr ['-', 'x'] = some ⟨-1, 1⟩ ∧
    (∀ sub : List Char,
      (sub.take (coefficentEndIndex sub) = [] ∨ sub.take (coefficentEndIndex sub) = ['+'] ∨
        sub.take (coefficentEndIndex sub) = ['-']) →
      Subpolynomial.fromStr sub = (parseU8 (degreeString sub)).map
        fun d => ⟨if sub.take (coefficentEndIndex sub) = ['-'] then -1 else 1, d⟩) ∧
    (∀ sub : List Char, degreeStartIndex sub = none →
      Subpolynomial.fromStr sub = (parseF64 (fixedCoefficent sub)).map
        fun v => ⟨v, if 'x' ∈ sub then 1 else 0⟩) := by
  refine ⟨by with_unfolding_all decide, by with_unfolding_all decide,
    by with_unfolding_all decide, by with_unfolding_all decide, ?_, ?_⟩
  · intro sub hraw
    have hpf : parseF64 (fixedCoefficent sub) =
        some (if sub.take (coefficentEndIndex sub) = ['-'] then -1 else 1) := by
      have hcond : sub.take (coefficentEndIndex sub) = [] ∨
          sub.take (coefficentEndIndex sub) = ['-'] ∨
          sub.take (coefficentEndIndex sub) = ['+'] := by tauto
      simp only [fixedCoefficent]
      rw [if_pos hcond]
      rcases hraw with h | h | h <;> rw [h] <;> with_unfolding_all decide
    unfold Subpolynomial.fromStr
    rw [hpf]
    cases parseU8 (degreeString sub) <;> simp
  · intro sub hdeg
    have hds : degreeString sub =
        if coefficentEndIndex sub = sub.length then ['0'] else ['1'] := by
      unfold degreeString
      rw [hdeg]
    by_cases hx : 'x' ∈ sub
    · have hne : coefficentEndIndex sub ≠ sub.length := fun h =>
        (coefficentEndIndex_eq_length_iff sub).mp h hx
      rw [if_neg hne] at hds
      have hpu : parseU8 (degreeString sub) = some 1 := by rw [hds]; decide
      unfold Subpolynomial.fromStr
      rw [hpu]
      cases parseF64 (fixedCoefficent sub) <;> simp [hx]
    · have heq : coefficentEndIndex sub = sub.length :=
        (coefficentEndIndex_eq_length_iff sub).mpr hx
      rw [if_pos heq] at hds
      have hpu : parseU8 (degreeString sub) = some 0 := by rw [hds]; decide
      unfold Subpolynomial.fromStr
      rw [hpu]
      cases parseF64 (fixedCoefficent sub) <;> simp [hx]

/-- Witness for C4: the sign-only coefficient rule applied to `"-x^2"` and the
missing-degree rule applied to `"2x7"`. -/
theorem term_implicit_values_witness :
    (Subpolynomial.fromStr ['-', 'x', '^', '2'] =
      (parseU8 (degreeString ['-', 'x', '^', '2'])).map
        fun d => ⟨if (['-', 'x', '^', '2'] : List Char).take
            (coefficentEndIndex ['-', 'x', '^', '2']) = ['-'] then -1 else 1, d⟩) ∧
    (Subpolynomial.fromStr ['2', 'x', '7'] =
      (parseF64 (fixedCoefficent ['2', 'x', '7'])).map
        fun v => ⟨v, if 'x' ∈ (['2', 'x', '7'] : List Char) then 1 else 0⟩) :=
  ⟨term_implicit_values.2.2.2.2.1 _ (by decide),
   term_implicit_values.2.2.2.2.2 _ (by decide)⟩

/-- C10: in a buffer containing an `'x'` but no `'^'` followed by at least one
character, everything after the first `'x'` is ignored and the degree defaults
to `1`: `"2x7"` parses to coefficient `2`, degree `1`, a trailing `'^'` is
likewise ignored, and in general the parse of `pre ++ 'x' :: post` agrees with
the parse of `pre ++ "x"` — the coefficient comes from `pre` alone and the
degree is `1`. -/
theorem chars_after_x_ignored :
    Subpolynomial.fromStr ['2', 'x', '7'] = some ⟨2, 1⟩ ∧
    Subpolynomial.fromStr ['2', 'x', '^'] = some ⟨2, 1⟩ ∧
    ∀ pre post : List Char, 'x' ∉ pre → '^' ∉ (pre ++ 'x' :: post).dropLast →
      Subpolynomial.fromStr (pre ++ 'x' :: post) = Subpolynomial.fromStr (pre ++ ['x']) ∧
      Subpolynomial.fromStr (pre ++ 'x' :: post) =
        (parseF64 (fixedCoefficent (pre ++ ['x']))).map fun v => ⟨v, 1⟩ := by
  refine ⟨by with_unfolding_all decide, by with_unfolding_all decide, ?_⟩
  intro pre post hx hc
  have hqx : ∀ c ∈ pre, (fun c => decide (c = 'x')) c = false := by
    intro c hcm
    simp only [decide_eq_false_iff_not]
    exact fun h => hx (h ▸ hcm)
  have hcpre : '^' ∉ pre := by
    intro h
    exact hc (List.dropLast_append_cons ▸ List.mem_append_left _ h)
  -- the first 'x' of both buffers sits at index `pre.length`
  have hXfind : ∀ post' : List Char,
      findChar (· = 'x') (pre ++ 'x' :: post') = some pre.length := by
    intro post'
    rw [findChar_append_of_none _ _ _ hqx]
    simp [findChar]
  have hEnd : coefficentEndIndex (pre ++ 'x' :: post) = pre.length := by
    unfold coefficentEndIndex
    rw [hXfind post]
    rfl
  have hEnd' : coefficentEndIndex (pre ++ ['x']) = pre.length := by
    unfold coefficentEndIndex
    rw [show (pre ++ ['x'] : List Char) = pre ++ 'x' :: [] from rfl, hXfind []]
    rfl
  -- no usable '^'-degree substring in either buffer
  have hDeg : degreeStartIndex (pre ++ 'x' :: post) = none := by
    unfold degreeStartIndex
    cases hf : findChar (· = '^') (pre ++ 'x' :: post) with
    | none => rfl
    | some i =>
        obtain ⟨d, hd, hqd⟩ := findChar_get _ _ _ hf
        have hd' : d = '^' := by simpa using hqd
        subst hd'
        have hlt : i < (pre ++ 'x' :: post).length := findChar_lt_length hf
        have hge : i ≥ (pre ++ 'x' :: post).length - 1 := by
          by_contra hlt'
          push_neg at hlt'
          have hidx : i < (pre ++ 'x' :: post).dropLast.length := by
            rw [List.length_dropLast]; omega
          have : (pre ++ 'x' :: post).dropLast[i] = '^' := by
            rw [List.getElem_dropLast]
            obtain ⟨h1, h2⟩ := List.get?_eq_some.mp hd
            simpa using h2
          exact hc (this ▸ List.getElem_mem hidx)
        have : i + 1 ≥ (pre ++ 'x' :: post).length := by omega
        simp only [Option.some_bind]
        rw [if_pos this]
  have hDeg' : degreeStartIndex (pre ++ ['x']) = none := by
    unfold degreeStartIndex
    have : findChar (· = '^') (pre ++ ['x']) = none := by
      rw [findChar_eq_none]
      intro c hcm
      rcases List.mem_append.mp hcm with h | h
      · simp only [decide_eq_false_iff_not]
        exact fun he => hcpre (he ▸ h)
      · simp only [List.mem_singleton] at h
        subst h
        decide
    rw [this]
    rfl
  have hlen : pre.length ≠ (pre ++ 'x' :: post).length := by
    rw [List.length_append, List.length_cons]; omega
  have hlen' : pre.length ≠ (pre ++ ['x']).length := by
    rw [List.length_append, List.length_singleton]; omega
  have hds : degreeString (pre ++ 'x' :: post) = ['1'] := by
    unfold degreeString
    rw [hDeg, hEnd, if_neg hlen]
  have hds' : degreeString (pre ++ ['x']) = ['1'] := by
    unfold degreeString
    rw [hDeg', hEnd', if_neg hlen']
  have hfix : fixedCoefficent (pre ++ 'x' :: post) = fixedCoefficent (pre ++ ['x']) := by
    unfold fixedCoefficent
    rw [hEnd, hEnd', List.take_left pre ('x' :: post), List.take_left pre ['x']]
  have hone : parseU8 ['1'] = some 1 := by decide
  have h1 : Subpolynomial.fromStr (pre ++ 'x' :: post) =
      (parseF64 (fixedCoefficent (pre ++ ['x']))).map fun v => ⟨v, 1⟩ := by
    unfold Subpolynomial.fromStr
    rw [hfix, hds, hone]
    cases parseF64 (fixedCoefficent (pre ++ ['x'])) <;> simp
  have h2 : Subpolynomial.fromStr (pre ++ ['x']) =
      (parseF64 (fixedCoefficent (pre ++ ['x']))).map fun v => ⟨v, 1⟩ := by
    unfold Subpolynomial.fromStr
    rw [hds', hone]
    cases parseF64 (fixedCoefficent (pre ++ ['x'])) <;> simp
  exact ⟨h1.trans h2.symm, h1⟩

/-- Witness for C10: the general after-`'x'` rule applied to `pre = "2"`,
`post = "7^"`: the parse equals that of `"2x"` with degree `1`. -/
theorem chars_after_x_ignored_witness :
    Subpolynomial.fromStr (['2'] ++ 'x' :: ['7', '^']) = Subpolynomial.fromStr (['2'] ++ ['x']) ∧
    Subpolynomial.fromStr (['2'] ++ 'x' :: ['7', '^']) =
      (parseF64 (fixedCoefficent (['2'] ++ ['x']))).map fun v => ⟨v, 1⟩ :=
  chars_after_x_ignored.2.2 ['2'] ['7', '^'] (by decide) (by decide)

lemma foldl_add_coefficent :
    ∀ (l : List Subpolynomial) (acc : ℚ),
      l.foldl (fun a x => a + x.coefficent) acc = acc + (l.map Subpolynomial.coefficent).sum := by
  intro l
  induction l with
  | nil => intro acc; simp
  | cons t l ih => intro acc; simp [ih, add_assoc]

lemma mapM_loop_eq_none {α β : Type} (f : α → Option β) :
    ∀ (l : List α) (x : α), x ∈ l → f x = none →
      ∀ acc : List β, List.mapM.loop f l acc = none := by
  intro l
  induction l with
  | nil => intro x hx; cases hx
  | cons a l ih =>
      intro x hx hfx acc
      rcases List.mem_cons.mp hx with rfl | hx'
      · simp [List.mapM.loop, hfx]
      · cases hfa : f a with
        | none => simp [List.mapM.loop, hfa]
        | some b => simp [List.mapM.loop, hfa, ih x hx' hfx]

lemma mapM_eq_none {α β : Type} (f : α → Option β) (l : List α) (x : α)
    (hx : x ∈ l) (hfx : f x = none) : l.mapM f = none :=
  mapM_loop_eq_none f l x hx hfx []

/-- C5: for every sequence of parsed terms, `a` is the sum of the coefficients
of the degree-2 terms, `b` of the degree-1 terms, `c` of the degree-0 terms,
and a term of any other degree contributes to none of the three buckets — it
is silently dropped, not rejected. -/
theorem aggregation_by_degree :
    (∀ subs : List Subpolynomial,
      build subs =
        ⟨((subs.filter fun x => x.degree = 2).map Subpolynomial.coefficent).sum,
         ((subs.filter fun x => x.degree = 1).map Subpolynomial.coefficent).sum,
         ((subs.filter fun x => x.degree = 0).map Subpolynomial.coefficent).sum⟩) ∧
    (∀ (l₁ l₂ : List Subpolynomial) (t : Subpolynomial),
      t.degree ≠ 0 → t.degree ≠ 1 → t.degree ≠ 2 →
      build (l₁ ++ t :: l₂) = build (l₁ ++ l₂)) := by
  constructor
  · intro subs
    unfold build
    rw [foldl_add_coefficent, foldl_add_coefficent, foldl_add_coefficent]
    simp
  · intro l₁ l₂ t h0 h1 h2
    unfold build
    simp [List.filter_append, List.filter_cons, h0, h1, h2]

/-- Witness for C5: a degree-7 term inserted between a degree-2 and a
degree-0 term changes nothing in the aggregate. -/
theorem aggregation_by_degree_witness :
    build ([⟨1, 2⟩] ++ (⟨5, 7⟩ : Subpolynomial) :: [⟨3, 0⟩]) = build ([⟨1, 2⟩] ++ [⟨3, 0⟩]) :=
  aggregation_by_degree.2 [⟨1, 2⟩] [⟨3, 0⟩] ⟨5, 7⟩ (by decide) (by decide) (by decide)

/-- C6: a term buffer fails to parse exactly when its (fixed-up) coefficient
substring is not a valid float or its degree substring is not a valid `u8`;
one failing buffer makes the whole polynomial parse fail — no partial or
best-effort polynomial is produced. -/
theorem parse_error_propagates :
    (∀ sub : List Char, Subpolynomial.fromStr sub = none ↔
      (parseF64 (fixedCoefficent sub) = none ∨ parseU8 (degreeString sub) = none)) ∧
    (∀ s buf : List Char, buf ∈ tokenize (stripWs s) → Subpolynomial.fromStr buf = none →
      Polynomial.fromStr s = none) := by
  constructor
  · intro sub
    unfold Subpolynomial.fromStr
    cases parseF64 (fixedCoefficent sub) <;> cases parseU8 (degreeString sub) <;> simp
  · intro s buf hmem hnone
    unfold Polynomial.fromStr tokenizeTerms
    rw [mapM_eq_none Subpolynomial.fromStr (tokenize (stripWs s)) buf hmem hnone]
    rfl

/-- Witness for C6: `"2^x"` tokenizes to the single buffer `"2^x"`, whose
degree substring `"x"` fails to parse as a `u8`, so the polynomial parse
fails. -/
theorem parse_error_propagates_witness :
    Polynomial.fromStr ("2^x".toList) = none :=
  parse_error_propagates.2 _ ['2', '^', 'x'] (by decide) (by decide)

/-- C2: for a single term `"Cx^D"` with `D ∈ {0,1,2}` and `C` a valid decimal
literal of value `v`, the parsed polynomial has exactly the field selected by
`D` (`a` for `D = 2`, `b` for `D = 1`, `c` for `D = 0`) equal to `v` and the
other two fields equal to `0`. -/
theorem single_term_parse (C : List Char) (D : Char) (v : ℚ)
    (hC : parseF64 C = some v) (hD : D = '0' ∨ D = '1' ∨ D = '2') :
    Polynomial.fromStr (C ++ ['x', '^', D]) =
      some (if D = '2' then ⟨v, 0, 0⟩ else if D = '1' then ⟨0, v, 0⟩ else ⟨0, 0, v⟩) := by
  obtain ⟨sgn, body, rfl, hsgn, hbody, hchars⟩ := parseF64_structure hC
  have hDdig : D.isDigit = true := by rcases hD with rfl | rfl | rfl <;> decide
  have hsgnchar : ∀ c ∈ sgn, c = '+' ∨ c = '-' := by
    rcases hsgn with rfl | rfl | rfl
    · intro c hc; cases hc
    · intro c hc; obtain rfl := List.mem_singleton.mp hc; exact Or.inl rfl
    · intro c hc; obtain rfl := List.mem_singleton.mp hc; exact Or.inr rfl
  have hCx : ∀ c ∈ sgn ++ body, (fun c => decide (c = 'x')) c = false := by
    intro c hc
    simp only [decide_eq_false_iff_not]
    rcases List.mem_append.mp hc with h | h
    · rcases hsgnchar c h with rfl | rfl <;> decide
    · exact (digit_or_dot_facts (hchars c h)).1
  have hCcaret : ∀ c ∈ sgn ++ body, (fun c => decide (c = '^')) c = false := by
    intro c hc
    simp only [decide_eq_false_iff_not]
    rcases List.mem_append.mp hc with h | h
    · rcases hsgnchar c h with rfl | rfl <;> decide
    · exact (digit_or_dot_facts (hchars c h)).2.1
  have hCws : ∀ c ∈ (sgn ++ body) ++ ['x', '^', D], c ≠ ' ' ∧ c ≠ '\t' := by
    intro c hc
    rcases List.mem_append.mp hc with h | h
    · rcases List.mem_append.mp h with h1 | h2
      · rcases hsgnchar c h1 with rfl | rfl <;> exact ⟨by decide, by decide⟩
      · obtain ⟨-, -, -, -, h5, h6⟩ := digit_or_dot_facts (hchars c h2)
        exact ⟨h5, h6⟩
    · simp only [List.mem_cons, List.mem_singleton, List.not_mem_nil, or_false] at h
      rcases h with rfl | rfl | rfl
      · exact ⟨by decide, by decide⟩
      · exact ⟨by decide, by decide⟩
      · obtain ⟨-, -, -, -, h5, h6⟩ := digit_or_dot_facts (Or.inl hDdig)
        exact ⟨h5, h6⟩
  have hbufAll : ∀ c ∈ body ++ ['x', '^', D], isBufChar c = true := by
    intro c hc
    rcases List.mem_append.mp hc with h | h
    · exact isBufChar_of_digit_or_dot (hchars c h)
    · simp only [List.mem_cons, List.mem_singleton, List.not_mem_nil, or_false] at h
      rcases h with rfl | rfl | rfl
      · decide
      · decide
      · exact isBufChar_of_digit_or_dot (Or.inl hDdig)
  have hstrip : stripWs ((sgn ++ body) ++ ['x', '^', D]) = (sgn ++ body) ++ ['x', '^', D] :=
    stripWs_eq_self hCws
  have htok : tokenize ((sgn ++ body) ++ ['x', '^', D]) = [(sgn ++ body) ++ ['x', '^', D]] := by
    rw [List.append_assoc]
    rw [tokenize_single_term sgn (body ++ ['x', '^', D]) hsgn (by simp) hbufAll]
  have hxfind : findChar (· = 'x') ((sgn ++ body) ++ ['x', '^', D]) =
      some (sgn ++ body).length := by
    rw [findChar_append_of_none _ _ _ hCx]
    simp [findChar]
  have hEnd : coefficentEndIndex ((sgn ++ body) ++ ['x', '^', D]) = (sgn ++ body).length := by
    unfold coefficentEndIndex
    rw [hxfind]
    rfl
  have hne3 : ¬(sgn ++ body = [] ∨ sgn ++ body = ['-'] ∨ sgn ++ body = ['+']) := by
    rintro (h | h | h)
    · rcases hsgn with rfl | rfl | rfl
      · exact hbody (by simpa using h)
      · simp at h
      · simp at h
    · rcases hsgn with rfl | rfl | rfl
      · rw [List.nil_append] at h
        have hm : ('-' : Char) ∈ body := h ▸ List.mem_singleton_self '-'
        rcases hchars '-' hm with hd | hd
        · revert hd; decide
        · revert hd; decide
      · simp at h
      · rw [show (['-'] ++ body : List Char) = '-' :: body from rfl] at h
        have : body = [] := by simpa using h
        exact hbody this
    · rcases hsgn with rfl | rfl | rfl
      · rw [List.nil_append] at h
        have hm : ('+' : Char) ∈ body := h ▸ List.mem_singleton_self '+'
        rcases hchars '+' hm with hd | hd
        · revert hd; decide
        · revert hd; decide
      · rw [show (['+'] ++ body : List Char) = '+' :: body from rfl] at h
        have : body = [] := by simpa using h
        exact hbody this
      · simp at h
  have hfix : fixedCoefficent ((sgn ++ body) ++ ['x', '^', D]) = sgn ++ body := by
    simp only [fixedCoefficent]
    rw [hEnd, List.take_left, if_neg hne3]
  have hcfind : findChar (· = '^') ((sgn ++ body) ++ ['x', '^', D]) =
      some (1 + (sgn ++ body).length) := by
    rw [findChar_append_of_none _ _ _ hCcaret]
    simp [findChar]
  have hlen3 : ((sgn ++ body) ++ ['x', '^', D]).length = (sgn ++ body).length + 3 := by
    simp only [List.length_append, List.length_cons, List.length_nil]
  have hDegStart : degreeStartIndex ((sgn ++ body) ++ ['x', '^', D]) =
      some ((sgn ++ body).length + 2) := by
    unfold degreeStartIndex
    rw [hcfind, Option.some_bind, if_neg (by rw [hlen3]; omega)]
    congr 1
    omega
  have hds : degreeString ((sgn ++ body) ++ ['x', '^', D]) = [D] := by
    unfold degreeString
    rw [hDegStart]
    show ((sgn ++ body) ++ ['x', '^', D]).drop ((sgn ++ body).length + 2) = [D]
    have h1 : (sgn ++ body).length + 2 = ((sgn ++ body) ++ ['x', '^']).length := by
      simp only [List.length_append, List.length_cons, List.length_nil]
    have h2 : (sgn ++ body) ++ ['x', '^', D] = ((sgn ++ body) ++ ['x', '^']) ++ [D] := by
      simp
    rw [h1, h2, List.drop_left]
  have hpf : parseF64 (fixedCoefficent ((sgn ++ body) ++ ['x', '^', D])) = some v := by
    rw [hfix]; exact hC
  rcases hD with rfl | rfl | rfl
  · have hpu : parseU8 ['0'] = some 0 := by decide
    have hsub : Subpolynomial.fromStr ((sgn ++ body) ++ ['x', '^', '0']) = some ⟨v, 0⟩ := by
      unfold Subpolynomial.fromStr
      rw [hpf, hds, hpu]
    unfold Polynomial.fromStr tokenizeTerms
    rw [hstrip, htok, mapM_singleton, hsub]
    simp [build]
  · have hpu : parseU8 ['1'] = some 1 := by decide
    have hsub : Subpolynomial.fromStr ((sgn ++ body) ++ ['x', '^', '1']) = some ⟨v, 1⟩ := by
      unfold Subpolynomial.fromStr
      rw [hpf, hds, hpu]
    unfold Polynomial.fromStr tokenizeTerms
    rw [hstrip, htok, mapM_singleton, hsub]
    simp [build]
  · have hpu : parseU8 ['2'] = some 2 := by decide
    have hsub : Subpolynomial.fromStr ((sgn ++ body) ++ ['x', '^', '2']) = some ⟨v, 2⟩ := by
      unfold Subpolynomial.fromStr
      rw [hpf, hds, hpu]
    unfold Polynomial.fromStr tokenizeTerms
    rw [hstrip, htok, mapM_singleton, hsub]
    simp [build]

/-- Witness for C2: the single term `"2.5x^1"` parses to `{a := 0, b := 5/2,
c := 0}`. -/
theorem single_term_parse_witness :
    Polynomial.fromStr (['2', '.', '5'] ++ ['x', '^', '1']) =
      some (if ('1' : Char) = '2' then ⟨5/2, 0, 0⟩
        else if ('1' : Char) = '1' then ⟨0, 5/2, 0⟩ else ⟨0, 0, 5/2⟩) :=
  single_term_parse ['2', '.', '5'] '1' (5/2)
    (by with_unfolding_all decide) (by decide)

end Factoring
